import Mathlib

/-!
Verification development for the Shoonya-wipe data-sanitization tool.

The Python sources are shallowly embedded as Lean definitions:
pure decision logic becomes pure functions, interactive prompts become
function arguments holding the answers, OS / console effects are elided
(only the data observables are kept), exceptions become `Except`,
and machine integers are `Nat`/`Int`.

Section 1: the NIST decision engine (`src/core/nist_compliance.py`).
-/

set_option maxRecDepth 10000

namespace Shoonya

/-- `DataSensitivity` enum (src/core/nist_compliance.py lines 28-32).
The enum member values are the strings "Low", "Moderate", "High". -/
inductive DataSensitivity where
  | low
  | moderate
  | high
deriving DecidableEq, Repr

/-- The `value` of each `DataSensitivity` member. -/
def DataSensitivity.value : DataSensitivity → String
  | .low => "Low"
  | .moderate => "Moderate"
  | .high => "High"

/-- `SanitizationMethod` enum (lines 35-39). -/
inductive SanitizationMethod where
  | clear
  | purge
  | destroy
deriving DecidableEq, Repr

/-- `SanitizationTechnique` enum (lines 42-47). -/
inductive SanitizationTechnique where
  | singlePassOverwrite
  | ssdSecureErase
  | cryptographicErase
  | physicalDestruction
deriving DecidableEq, Repr

/-- `DeviceInfo` dataclass (lines 50-61). -/
structure DeviceInfo where
  name : String
  path : String
  model : String
  serial : String
  size : String
  transport : String
  media_type : String
  is_encrypted : Bool := false
  encryption_always_on : Bool := false
deriving DecidableEq, Repr

/-- Python exceptions that the embedded code can raise. -/
inductive PyExc where
  | valueError (msg : String)
  | typeError
  | attributeError
  | zeroDivisionError
deriving DecidableEq, Repr

/-- Python `str.lower()` restricted to the ASCII case mapping, defined
on the character list so that it evaluates by kernel reduction. -/
def pyLower (s : String) : String := ⟨s.data.map Char.toLower⟩

/-- Python `str.upper()` (ASCII), on the character list. -/
def pyUpper (s : String) : String := ⟨s.data.map Char.toUpper⟩

/-- Python `str.startswith(p)`, on the character lists. -/
def pyStartsWith (s p : String) : Bool := p.data.isPrefixOf s.data

/-- `DataSensitivity(value)`: Python `Enum` lookup **by value**.  It raises
`ValueError` unless the argument is exactly one of the member values
"Low" / "Moderate" / "High". -/
def dataSensitivityOfValue (s : String) : Except PyExc DataSensitivity :=
  if s = "Low" then .ok .low
  else if s = "Moderate" then .ok .moderate
  else if s = "High" then .ok .high
  else .error (.valueError s)

/-- The transports treated as SSD-class throughout the engine. -/
def ssdTransports : List String := ["nvme", "sata", "ata"]

/-- `NISTComplianceEngine._select_purge_technique` (lines 140-166):
choose a Purge technique from the transport and encryption state. -/
def selectPurgeTechnique (device : DeviceInfo) : SanitizationTechnique :=
  let transport := pyLower device.transport
  if transport ∈ ssdTransports ∧ device.is_encrypted = true then
    if device.encryption_always_on = true then
      SanitizationTechnique.cryptographicErase
    else
      SanitizationTechnique.ssdSecureErase
  else if transport ∈ ssdTransports then
    SanitizationTechnique.ssdSecureErase
  else
    SanitizationTechnique.singlePassOverwrite

/-- The decision table of `run_nist_decision_flowchart` (lines 122-135),
after the sensitivity answer has been parsed into an enum member. -/
def nistDecisionLogic (device : DeviceInfo) (sensitivity : DataSensitivity)
    (leavesControl : Bool) : SanitizationMethod × SanitizationTechnique :=
  if sensitivity = .low ∧ ¬leavesControl then
    (.clear, .singlePassOverwrite)
  else if sensitivity = .low ∧ leavesControl then
    (.purge, selectPurgeTechnique device)
  else if sensitivity = .moderate ∨ sensitivity = .high then
    (.purge, selectPurgeTechnique device)
  else
    (.purge, selectPurgeTechnique device)

/-- `NISTComplianceEngine.run_nist_decision_flowchart` (lines 82-138).
The three interactive prompts become arguments: `willReuse` (Confirm),
`sensitivityChoice` (Prompt with choices "low"/"moderate"/"high"),
`leavesControl` (Confirm).  The source computes
`DataSensitivity(sensitivity_choice.upper())`, so the parse step receives
the upper-cased answer. -/
def runNistDecisionFlowchart (device : DeviceInfo) (willReuse : Bool)
    (sensitivityChoice : String) (leavesControl : Bool) :
    Except PyExc (SanitizationMethod × SanitizationTechnique) :=
  if willReuse = false then
    .ok (.destroy, .physicalDestruction)
  else
    match dataSensitivityOfValue (pyUpper sensitivityChoice) with
    | .error e => .error e
    | .ok sensitivity => .ok (nistDecisionLogic device sensitivity leavesControl)

/-- `NISTComplianceEngine.validate_method_choice` (lines 322-347):
returns the boolean verdict together with the warning strings it
accumulates (console printing elided). -/
def validateMethodChoice (device : DeviceInfo) (method : SanitizationMethod)
    (technique : SanitizationTechnique) : Bool × List String :=
  let warnings : List String := []
  let warnings :=
    if pyLower device.transport ∈ ssdTransports ∧ method = SanitizationMethod.clear then
      warnings ++ ["Consider using Purge method for SSDs - Clear may not reach all storage areas"]
    else warnings
  if technique = .cryptographicErase ∧ device.is_encrypted = false then
    (false, warnings ++ ["Cryptographic Erase requires an encrypted drive"])
  else
    let warnings :=
      if technique = .cryptographicErase ∧ device.encryption_always_on = false then
        warnings ++ ["WARNING: Data may have been saved before encryption was enabled"]
      else warnings
    (true, warnings)

/-- `SanitizationResult` dataclass (lines 64-72); the completion time is an
abstract timestamp. -/
structure SanitizationResult where
  success : Bool
  method : SanitizationMethod
  technique : SanitizationTechnique
  verification_status : String
  error_message : Option String := none
  completion_time : Option Nat := none
deriving DecidableEq, Repr

/-- The status-check console line chosen by `verify_sanitization`
for each technique (lines 298-311). -/
def verificationCheckMessage (t : SanitizationTechnique) : String :=
  if t = .ssdSecureErase then "Checking drive status after secure erase..."
  else if t = .cryptographicErase then "Verifying encryption key destruction..."
  else "Verifying overwrite completion..."

/-- `NISTComplianceEngine.verify_sanitization` (lines 284-320): the local
`verification_passed` is initialised to `True` and no branch ever changes
it; the result status is then set to "passed" or "failed" accordingly.
Returns (boolean verdict, updated result, check message printed). -/
def verifySanitization (_device : DeviceInfo) (result : SanitizationResult) :
    Bool × SanitizationResult × String :=
  let verificationPassed := true
  let msg := verificationCheckMessage result.technique
  if verificationPassed then
    (verificationPassed, { result with verification_status := "passed" }, msg)
  else
    (verificationPassed, { result with verification_status := "failed" }, msg)

/-- The post-decision execution stage of `safeerase.main` (lines 574-586):
for Destroy the program prints a recommendation and returns before any
execute call; Clear runs `execute_clear_method`; Purge runs
`execute_purge_method` with the chosen technique.  The returned value is
the technique-execution call that is made, if any. -/
def mainExecutionStage (method : SanitizationMethod)
    (technique : SanitizationTechnique) :
    Option (SanitizationMethod × SanitizationTechnique) :=
  match method with
  | .destroy => none
  | .clear => some (.clear, .singlePassOverwrite)
  | .purge => some (.purge, technique)

/-!
Section 2: production safety controls
(`src/core/production/safety_controls.py`) and the real dispatcher
(`src/engine/production/real_dispatcher.py`).
-/

/-- Python truthiness of `os.getenv(...)`: `None` and the empty string are
falsy, any other string is truthy. -/
def envTruthy : Option String → Bool
  | none => false
  | some s => s != ""

/-- The process environment consulted by the safety controller. -/
structure ProdEnv where
  euid : Nat
  productionModeVar : Option String
  disableSafetyVar : Option String
deriving DecidableEq, Repr

/-- `SafetyController.validate_production_environment` (lines 20-37).
Returns ((ok, errors), safety_checks_enabled after the call): the method
sets `self.safety_checks_enabled = False` when
`SHOONYA_DISABLE_SAFETY_CHECKS` is truthy. -/
def validateProductionEnvironment (env : ProdEnv) :
    (Bool × List String) × Bool :=
  let errors : List String := []
  let errors := if env.euid ≠ 0 then
      errors ++ ["Production mode requires root privileges"]
    else errors
  let errors := if ¬envTruthy env.productionModeVar then
      errors ++ ["Production mode not enabled. Set SHOONYA_PRODUCTION_MODE=1"]
    else errors
  let safetyChecksEnabled := ¬envTruthy env.disableSafetyVar
  ((errors.isEmpty, errors), safetyChecksEnabled)

/-- Facts about a candidate device that the OS-level probes of
`SafetyController` would report. -/
structure DeviceOracle where
  path : String
  existsOnDisk : Bool
  mounted : Bool
deriving DecidableEq, Repr

/-- `SafetyController._is_system_drive` (lines 80-83). -/
def isSystemDrive (path : String) : Bool :=
  ["/dev/sda", "/dev/nvme0n1", "/dev/mmcblk0"].any (fun d => pyStartsWith path d)

/-- `SafetyController._is_critical_device` (lines 85-92). -/
def isCriticalDevice (path : String) : Bool :=
  path ∈ ["/dev/sda1", "/dev/sda2", "/dev/nvme0n1p1", "/dev/nvme0n1p2",
          "/dev/mmcblk0p1", "/dev/mmcblk0p2"]

/-- `SafetyController.validate_device_safety` (lines 39-68).  When
`safety_checks_enabled` is false the method returns `(True, [])` without
performing any check. -/
def validateDeviceSafety (safetyChecksEnabled : Bool) (d : DeviceOracle) :
    Bool × List String :=
  if ¬safetyChecksEnabled then (true, [])
  else if ¬d.existsOnDisk then
    (false, ["Device " ++ d.path ++ " does not exist"])
  else if ¬pyStartsWith d.path "/dev/" then
    (false, ["Invalid device path: " ++ d.path])
  else
    let errors : List String := []
    let errors := if d.mounted then
        errors ++ ["Device " ++ d.path ++ " is currently mounted"]
      else errors
    let errors := if isSystemDrive d.path then
        errors ++ ["Device " ++ d.path ++ " appears to be a system drive"]
      else errors
    let errors := if isCriticalDevice d.path then
        errors ++ ["Device " ++ d.path ++ " is a critical system device"]
      else errors
    (errors.isEmpty, errors)

/-- `SafetyController.require_confirmation` (lines 94-106).  Returns
(prompted, confirmed): when `safety_checks_enabled` is false it returns
`True` **without prompting at all**; otherwise it prompts and succeeds
only on the exact response "YES". -/
def requireConfirmation (safetyChecksEnabled : Bool) (response : String) :
    Bool × Bool :=
  if ¬safetyChecksEnabled then (false, true)
  else (true, response = "YES")

/-- Observable trace of one `RealDispatcher.execute_wipe` run. -/
structure WipeTrace where
  deviceChecksEnforced : Bool
  confirmationPrompted : Bool
  engineInvoked : Bool
deriving DecidableEq, Repr

/-- `RealDispatcher.execute_wipe` (real_dispatcher.py lines 23-69): the
environment gate, then the device gate, then the confirmation gate, then
the Clear/Purge engine.  The engine outcome is abstracted as
`engineSuccess`; `response` is what `input()` would read if the
confirmation prompt is shown. -/
def executeWipe (env : ProdEnv) (dev : DeviceOracle) (response : String)
    (method : SanitizationMethod) (engineSuccess : Bool) : Bool × WipeTrace :=
  let ((envOk, _envErrors), enabled) := validateProductionEnvironment env
  if ¬envOk then
    (false, ⟨false, false, false⟩)
  else
    let (devOk, _devErrors) := validateDeviceSafety enabled dev
    if ¬devOk then
      (false, ⟨enabled, false, false⟩)
    else
      let (prompted, confirmed) := requireConfirmation enabled response
      if ¬confirmed then
        (false, ⟨enabled, prompted, false⟩)
      else
        match method with
        | .clear => (engineSuccess, ⟨enabled, prompted, true⟩)
        | .purge => (engineSuccess, ⟨enabled, prompted, true⟩)
        | .destroy => (false, ⟨enabled, prompted, false⟩)

/-!
Section 3: the simulated single-pass overwrite executors
(`src/engine/safe/clear.py` and `src/core/safe/sandbox.py`).
A file-backed extent is its byte list; console detail strings are elided,
the observables kept are success, reported bytes written, the fsync call,
and the final contents.
-/

/-- One `f.write` of `n` copies of byte `pat` at offset `pos`. -/
def writeAt (contents : List Nat) (pos n pat : Nat) : List Nat :=
  contents.take pos ++ List.replicate n pat ++ contents.drop (pos + n)

/-- The sequential overwrite loop shared by `clear_overwrite`
(clear.py lines 21-27: `remaining = size - written`) — write
`min(chunk, size - written)` pattern bytes at the current offset until
`written = size`. -/
def overwriteLoop (chunk pat : Nat) (contents : List Nat)
    (written size : Nat) : List Nat × Nat :=
  if h : written < size ∧ 0 < chunk then
    let toWrite := min chunk (size - written)
    overwriteLoop chunk pat (writeAt contents written toWrite pat)
      (written + toWrite) size
  else
    (contents, written)
termination_by size - written
decreasing_by
  have h1 : 1 ≤ min chunk (size - written) := by
    have := h.1; have := h.2; omega
  omega

/-- Result of `clear_overwrite` (file-backed simulation branch,
clear.py lines 13-28). -/
structure ClearResult where
  success : Bool
  bytesWritten : Nat
  contents : List Nat
deriving DecidableEq, Repr

/-- `clear_overwrite` on an existing file-backed extent (clear.py lines
13-28): 1 MiB chunks of the fixed b"\x00" pattern; `bytes_written`
accumulates exactly the written amounts; no exception is possible in this
branch. -/
def clearOverwrite (contents : List Nat) : ClearResult :=
  match overwriteLoop (1024 * 1024) 0 contents 0 contents.length with
  | (c, written) => ⟨true, written, c⟩

/-- The sandbox overwrite loop (sandbox.py lines 61-68): after each write
the progress update computes `written % (size // 10)`, which raises
`ZeroDivisionError` whenever `size // 10 = 0`.  Returns (contents,
written, raised). -/
def overwriteFileLoop (chunk pat : Nat) (contents : List Nat)
    (written size : Nat) : List Nat × Nat × Bool :=
  if h : written < size ∧ 0 < chunk then
    let toWrite := min chunk (size - written)
    let c := writeAt contents written toWrite pat
    if size / 10 = 0 then
      (c, written + toWrite, true)
    else
      overwriteFileLoop chunk pat c (written + toWrite) size
  else
    (contents, written, false)
termination_by size - written
decreasing_by
  have h1 : 1 ≤ min chunk (size - written) := by
    have := h.1; have := h.2; omega
  omega

/-- Result of `sandbox.overwrite_file`: on the exception path the returned
dict has `success=False` and **no** `bytes_written` key, and
`f.flush()` / `os.fsync` are skipped (the `with` block still closes the
file, so the buffered writes reach the extent). -/
structure SandboxResult where
  success : Bool
  bytesWritten : Option Nat
  fsynced : Bool
  contents : List Nat
deriving DecidableEq, Repr

/-- `sandbox.overwrite_file` (sandbox.py lines 48-88) with the default
pattern b"\x00" generalised to a single byte `pat` and chunk size
`chunk` (default 1 MiB). -/
def overwriteFile (pat chunk : Nat) (contents : List Nat) : SandboxResult :=
  match overwriteFileLoop chunk pat contents 0 contents.length with
  | (c, written, false) => ⟨true, some written, true, c⟩
  | (c, _, true) => ⟨false, none, false, c⟩

/-!
Sample concrete inputs used by closed theorems and witnesses.
-/

/-- Scenario A device: NVMe, encrypted, always-on encryption
(cf. `nist_compliance.main`, lines 432-442). -/
def devA : DeviceInfo :=
  ⟨"nvme0n1", "/dev/nvme0n1", "Samsung SSD 980 PRO", "S4EWNX0N123456",
   "1TB", "nvme", "Flash Memory", true, true⟩

/-- Scenario B device: SATA, not encrypted. -/
def devB : DeviceInfo :=
  ⟨"sdb", "/dev/sdb", "Seagate BarraCuda", "Z9A01234", "500G", "sata",
   "Flash Memory", false, false⟩

/-- Root shell with `SHOONYA_PRODUCTION_MODE=1` and
`SHOONYA_DISABLE_SAFETY_CHECKS=1`. -/
def envDisabled : ProdEnv := ⟨0, some "1", some "1"⟩

/-- Root shell with `SHOONYA_PRODUCTION_MODE=1` and safety checks
left enabled. -/
def envEnabled : ProdEnv := ⟨0, some "1", none⟩

/-- A mounted boot partition: exists, is under `/dev/`, is mounted, is a
system drive by prefix and a critical device by exact match. -/
def devMounted : DeviceOracle := ⟨"/dev/sda1", true, true⟩

/-- A 12-byte virtual extent of non-zero bytes. -/
def sample12 : List Nat := List.replicate 12 7

/-- A 3-byte virtual extent. -/
def sample3 : List Nat := [1, 2, 3]

/-!
Section 4: certificate signing and verification
(`src/core/safeerase.py` `sign_json`, `src/core/verify.py` `verify`).

JSON data is embedded as `JValue`; `json.dumps(obj, separators=(",", ":"),
sort_keys=True).encode("utf-8")` is embedded character-exactly by
`canonicalBytes` (the UTF-8 byte level is represented by the character
list, which encodes to it injectively).  The PyCryptodome primitives are
external to the repository and are modelled ideally: `sha256` as a
collision-free digest (the identity on the canonical bytes) and RSA-PSS
as a perfect signature scheme — verification succeeds exactly when the
signature was produced by the matching keypair over the same digest.
Base64 transport of the signature is modelled by an injective printable
encoding with an explicit decoder.
-/

/-- A parsed JSON value (no floats appear in the records this tool
produces). -/
inductive JValue where
  | jnull
  | jbool (b : Bool)
  | jnum (n : Int)
  | jstr (s : String)
  | jarr (elems : List JValue)
  | jobj (fields : List (String × JValue))

/-- The character `\x7b`. -/
def openBrace : Char := Char.ofNat 123

/-- The character `\x7d`. -/
def closeBrace : Char := Char.ofNat 125

/-- ASCII decimal digit test. -/
def isDig (c : Char) : Bool := 48 ≤ c.toNat && c.toNat ≤ 57

/-- Lower-case hex digit, as emitted by Python `"\\u%04x"`. -/
def hexDigitChar (n : Nat) : Char :=
  if n < 10 then Char.ofNat (48 + n) else Char.ofNat (87 + n)

/-- Four lower-case hex digits of `n < 0x10000`, most significant first. -/
def hex4 (n : Nat) : List Char :=
  [hexDigitChar (n / 4096 % 16), hexDigitChar (n / 256 % 16),
   hexDigitChar (n / 16 % 16), hexDigitChar (n % 16)]

/-- Python `json` `\uXXXX` escape of a code point: BMP code points give one
escape, astral code points a UTF-16 surrogate pair. -/
def uescape (n : Nat) : List Char :=
  if n < 65536 then '\\' :: 'u' :: hex4 n
  else
    ('\\' :: 'u' :: hex4 (55296 + (n - 65536) / 1024))
      ++ ('\\' :: 'u' :: hex4 (56320 + (n - 65536) % 1024))

/-- Per-character escaping of `json.dumps` with its default
`ensure_ascii=True`: backslash, quote and the five short control escapes,
`\uXXXX` for every other character outside printable ASCII `0x20..0x7e`,
the character itself otherwise. -/
def escChar (c : Char) : List Char :=
  if c = '\\' then ['\\', '\\']
  else if c = '\"' then ['\\', '\"']
  else if c = '\n' then ['\\', 'n']
  else if c = '\t' then ['\\', 't']
  else if c = '\r' then ['\\', 'r']
  else if c = Char.ofNat 8 then ['\\', 'b']
  else if c = Char.ofNat 12 then ['\\', 'f']
  else if c.toNat < 32 ∨ 126 < c.toNat then uescape c.toNat
  else [c]

/-- `json.dumps` of a string: quoted, each character escaped. -/
def encStr (s : String) : List Char :=
  '\"' :: (s.data.map escChar).flatten ++ ['\"']

/-- Decimal digit characters of `n`, most significant first (`fuel`-bounded
helper; `fuel ≥ n` always suffices). -/
def natDigitsAux : Nat → Nat → List Char
  | 0, _ => []
  | fuel + 1, n =>
    if n = 0 then []
    else natDigitsAux fuel (n / 10) ++ [Char.ofNat (48 + n % 10)]

/-- Python decimal representation of a natural number. -/
def natDigits (n : Nat) : List Char :=
  if n = 0 then ['0'] else natDigitsAux n n

/-- `json.dumps` of an int: decimal digits, `-` prefix when negative. -/
def encInt (i : Int) : List Char :=
  if i < 0 then '-' :: natDigits i.natAbs else natDigits i.toNat

mutual

/-- `json.dumps(v, separators=(",", ":"))` at the character level, for
values whose object fields are already in output (sorted) order. -/
def encVal : JValue → List Char
  | .jnull => ['n', 'u', 'l', 'l']
  | .jbool true => ['t', 'r', 'u', 'e']
  | .jbool false => ['f', 'a', 'l', 's', 'e']
  | .jnum n => encInt n
  | .jstr s => encStr s
  | .jarr xs => '[' :: encItems xs
  | .jobj kvs => openBrace :: encFields kvs

/-- Comma-joined array elements followed by the closing bracket. -/
def encItems : List JValue → List Char
  | [] => [']']
  | [x] => encVal x ++ [']']
  | x :: y :: rest => encVal x ++ ',' :: encItems (y :: rest)

/-- Comma-joined `"key":value` fields followed by the closing brace. -/
def encFields : List (String × JValue) → List Char
  | [] => [closeBrace]
  | [(k, v)] => encStr k ++ ':' :: encVal v ++ [closeBrace]
  | (k, v) :: e :: rest => encStr k ++ ':' :: encVal v ++ ',' :: encFields (e :: rest)

end

/-- Lexicographic code-point comparison of character lists — Python
string `<`. -/
def strLtAux : List Char → List Char → Bool
  | [], [] => false
  | [], _ :: _ => true
  | _ :: _, [] => false
  | a :: as, b :: bs =>
    if a.toNat < b.toNat then true
    else if b.toNat < a.toNat then false
    else strLtAux as bs

/-- Python string `<` (code-point lexicographic). -/
def strLtB (a b : String) : Bool := strLtAux a.data b.data

/-- Python string `<=`. -/
def strLeB (a b : String) : Bool := !strLtB b a

/-- Stable insertion of a field into a key-sorted field list. -/
def insertSorted (a : String × JValue) :
    List (String × JValue) → List (String × JValue)
  | [] => [a]
  | b :: l => if strLeB a.1 b.1 then a :: b :: l else b :: insertSorted a l

/-- Python `sorted` by key (stable; keys are compared as code-point
strings, which is Python string order). -/
def sortFields : List (String × JValue) → List (String × JValue)
  | [] => []
  | a :: l => insertSorted a (sortFields l)

mutual

/-- The `sort_keys=True` part of `json.dumps`: every object's fields are
put in key order, recursively. -/
def normalize : JValue → JValue
  | .jnull => .jnull
  | .jbool b => .jbool b
  | .jnum n => .jnum n
  | .jstr s => .jstr s
  | .jarr xs => .jarr (normalizeItems xs)
  | .jobj kvs => .jobj (sortFields (normalizeFields kvs))

def normalizeItems : List JValue → List JValue
  | [] => []
  | x :: xs => normalize x :: normalizeItems xs

def normalizeFields : List (String × JValue) → List (String × JValue)
  | [] => []
  | (k, v) :: rest => (k, normalize v) :: normalizeFields rest

end

/-- `json.dumps(obj, separators=(",", ":"), sort_keys=True).encode("utf-8")`
— the only byte sequence ever hashed or signed (safeerase.py line 286,
verify.py `canonical_bytes`). -/
def canonicalBytes (v : JValue) : List Char := encVal (normalize v)

/-- Strictly increasing strings. -/
def strSorted : List String → Bool
  | [] => true
  | [_] => true
  | a :: b :: rest => strLtB a b && strSorted (b :: rest)

/-- Strictly increasing keys. -/
def keysSorted (d : List (String × JValue)) : Bool :=
  strSorted (d.map Prod.fst)

mutual

/-- Canonical values: every object has strictly sorted (hence duplicate
free) keys, recursively.  Every Python dict tree has exactly one
canonical representative. -/
def canonB : JValue → Bool
  | .jnull => true
  | .jbool _ => true
  | .jnum _ => true
  | .jstr _ => true
  | .jarr xs => canonItems xs
  | .jobj kvs => keysSorted kvs && canonFields kvs

def canonItems : List JValue → Bool
  | [] => true
  | x :: xs => canonB x && canonItems xs

def canonFields : List (String × JValue) → Bool
  | [] => true
  | (_, v) :: rest => canonB v && canonFields rest

end

/-- The canonical byte string (message) fed to the hash. -/
abbrev Bytes := List Char

/-- `SHA256.new(data).digest()` — external primitive, idealized as a
collision-free digest: the identity on the message. -/
def sha256 (m : Bytes) : Bytes := m

/-- An RSA-PSS signature — external primitive, idealized: the signature
determines the signing keypair and the digest it signed. -/
structure PssSig where
  kid : Nat
  digest : Bytes
deriving DecidableEq, Repr

/-- `pss.new(private_key).sign(h)` for the keypair identified by `kid`. -/
def pssSign (kid : Nat) (digest : Bytes) : PssSig := ⟨kid, digest⟩

/-- `pss.new(public_key).verify(h, sig)` as a boolean (the library raises
`ValueError` on failure, which `verify` catches): succeeds exactly for a
signature made by the matching keypair over the same digest. -/
def pssVerify (kid : Nat) (digest : Bytes) (sig : PssSig) : Bool :=
  sig.kid == kid && sig.digest == digest

/-- Decimal value of a digit-character run, most significant first. -/
def natFromDigits (ds : List Char) : Nat :=
  ds.foldl (fun a c => a * 10 + (c.toNat - 48)) 0

/-- `base64.b64encode(signature)` — modelled as an injective printable
encoding of the ideal signature: decimal key id, a colon, the digest. -/
def sigEncode (sig : PssSig) : String :=
  String.mk (natDigits sig.kid ++ ':' :: sig.digest)

/-- `base64.b64decode` composed with signature parsing: inverse of
`sigEncode` when the input is well formed, `none` otherwise (the source
raises `binascii.Error ⊆ ValueError` there, which `verify` catches). -/
def sigDecode (s : String) : Option PssSig :=
  let ds := s.data.takeWhile isDig
  let rest := s.data.dropWhile isDig
  match rest with
  | ':' :: tail => if ds.isEmpty then none else some ⟨natFromDigits ds, tail⟩
  | _ => none

/-- `hashlib.sha256(pub_bytes).hexdigest()[:16]` — idealized key
fingerprint. -/
def fingerprintOf (kid : Nat) : String := String.mk (natDigits kid)

/-- Python `dict.get` on the embedded dict (first match; keys of real
dicts are unique). -/
def pyGet (d : List (String × JValue)) (k : String) : Option JValue :=
  match d with
  | [] => none
  | kv :: rest => if kv.1 = k then some kv.2 else pyGet rest k

/-- Python `dict[k] = v`: replace the value at an existing key in place,
append otherwise. -/
def setKey (d : List (String × JValue)) (k : String) (v : JValue) :
    List (String × JValue) :=
  match d with
  | [] => [(k, v)]
  | kv :: rest => if kv.1 = k then (k, v) :: rest else kv :: setKey rest k v

/-- `dict(data)` followed by `.pop(k, None)`. -/
def removeKey (d : List (String × JValue)) (k : String) :
    List (String × JValue) :=
  d.filter (fun kv => kv.1 ≠ k)

/-- Python truthiness of a JSON value (`or {}` and `if not sig_b64`). -/
def isFalsy : JValue → Bool
  | .jnull => true
  | .jbool b => !b
  | .jnum n => n == 0
  | .jstr s => s == ""
  | .jarr xs => xs.isEmpty
  | .jobj kvs => kvs.isEmpty

/-- The `signature` object `sign_json` embeds (safeerase.py lines
297-302). -/
def signatureBlock (kid : Nat) (digest : Bytes) : JValue :=
  .jobj [("alg", .jstr "RSA-PSS-SHA256"),
         ("sig_b64", .jstr (sigEncode (pssSign kid digest))),
         ("pubkey_sha256_16", .jstr (fingerprintOf kid))]

/-- `sign_json` (safeerase.py lines 276-303): canonicalize, hash, sign
with the deployment keypair `kid`, and add the signature object to a
shallow copy of the record. -/
def signJson (kid : Nat) (record : List (String × JValue)) :
    List (String × JValue) :=
  setKey record "signature"
    (signatureBlock kid (sha256 (canonicalBytes (.jobj record))))

/-- `verify` (verify.py lines 27-54) on the already-parsed JSON record
`data` against the public key of keypair `kid`, split into `sigBlockOf`
(the value of `sig_block = data.get("signature") or ` empty dict) and
`verifyRecord` below.  A truthy non-dict signature value makes
`sig_block.get` raise `AttributeError`, which nothing catches; failures
inside the `try` block (`binascii.Error`/`ValueError` from b64decode,
`TypeError` from b64decode of a non-string, `ValueError` from
`pss.verify`) are caught and yield `False`.  The fingerprint comparison
only prints a warning and cannot change the outcome. -/
def sigBlockOf (data : List (String × JValue)) : JValue :=
  if isFalsy ((pyGet data "signature").getD .jnull) then JValue.jobj []
  else (pyGet data "signature").getD .jnull

/-- See the doc comment above `sigBlockOf` for the exception behaviour. -/
def verifyRecord (kid : Nat) (data : List (String × JValue)) :
    Except PyExc Bool :=
  match sigBlockOf data with
  | .jobj l =>
    match pyGet l "sig_b64" with
    | none => .ok false
    | some sb =>
      if isFalsy sb then .ok false
      else
        match sb with
        | .jstr s =>
          match sigDecode s with
          | none => .ok false
          | some sig =>
            .ok (pssVerify kid
              (sha256 (canonicalBytes (.jobj (removeKey data "signature"))))
              sig)
        | _ => .ok false
  | _ => .error .attributeError

/-- A signature block that is a dict but carries no usable signature:
`sig_b64` missing, falsy, not a string, or undecodable. -/
def malformedSig : JValue → Bool
  | .jobj l =>
    match pyGet l "sig_b64" with
    | none => true
    | some sb =>
      isFalsy sb ||
        (match sb with
         | .jstr s => (sigDecode s).isNone
         | _ => true)
  | _ => false

/-!
A deterministic decoder for the canonical encoding, used only to prove
that `encVal` is injective (every canonical byte string has at most one
preimage).  It is a proof device, not a model of source code.
-/

/-- Read a leading decimal digit run. -/
def parseNatRun (input : List Char) : Option (Nat × List Char) :=
  let ds := input.takeWhile isDig
  if ds.isEmpty then none
  else some (natFromDigits ds, input.dropWhile isDig)

/-- Value of one lower-case hex digit character. -/
def hexVal (c : Char) : Nat :=
  if c.toNat ≤ 57 then c.toNat - 48 else c.toNat - 87

/-- Read escaped string characters up to the closing quote. -/
def parseStrChars : Nat → List Char → Option (List Char × List Char)
  | 0, _ => none
  | fuel + 1, input =>
    match input with
    | '\"' :: r => some ([], r)
    | '\\' :: e :: r =>
      match e with
      | 'u' =>
        match r with
        | d1 :: d2 :: d3 :: d4 :: r2 =>
          let m := hexVal d1 * 4096 + hexVal d2 * 256 + hexVal d3 * 16 + hexVal d4
          if 55296 ≤ m ∧ m < 56320 then
            match r2 with
            | '\\' :: 'u' :: e1 :: e2 :: e3 :: e4 :: r3 =>
              let m2 := hexVal e1 * 4096 + hexVal e2 * 256 + hexVal e3 * 16 + hexVal e4
              (parseStrChars fuel r3).map
                (fun p => (Char.ofNat (65536 + (m - 55296) * 1024 + (m2 - 56320)) :: p.1, p.2))
            | _ => none
          else
            (parseStrChars fuel r2).map (fun p => (Char.ofNat m :: p.1, p.2))
        | _ => none
      | _ =>
        let c :=
          if e = 'n' then '\n'
          else if e = 't' then '\t'
          else if e = 'r' then '\r'
          else if e = 'b' then Char.ofNat 8
          else if e = 'f' then Char.ofNat 12
          else e
        (parseStrChars fuel r).map (fun p => (c :: p.1, p.2))
    | c :: r => (parseStrChars fuel r).map (fun p => (c :: p.1, p.2))
    | [] => none

mutual

/-- Read one JSON value. -/
def parseVal : Nat → List Char → Option (JValue × List Char)
  | 0, _ => none
  | fuel + 1, input =>
    match input with
    | 'n' :: 'u' :: 'l' :: 'l' :: r => some (.jnull, r)
    | 't' :: 'r' :: 'u' :: 'e' :: r => some (.jbool true, r)
    | 'f' :: 'a' :: 'l' :: 's' :: 'e' :: r => some (.jbool false, r)
    | '\"' :: r => (parseStrChars fuel r).map (fun p => (.jstr (String.mk p.1), p.2))
    | '[' :: r => (parseItems fuel r).map (fun p => (.jarr p.1, p.2))
    | '-' :: r =>
      match parseNatRun r with
      | some (n, r2) => some (.jnum (-(n : Int)), r2)
      | none => none
    | c :: r =>
      if c = openBrace then (parseFields fuel r).map (fun p => (.jobj p.1, p.2))
      else if isDig c then
        match parseNatRun (c :: r) with
        | some (n, r2) => some (.jnum (n : Int), r2)
        | none => none
      else none
    | [] => none

/-- Read array elements up to the closing bracket. -/
def parseItems : Nat → List Char → Option (List JValue × List Char)
  | 0, _ => none
  | fuel + 1, input =>
    match input with
    | ']' :: r => some ([], r)
    | _ =>
      match parseVal fuel input with
      | none => none
      | some (v, r1) =>
        match r1 with
        | ',' :: r2 => (parseItems fuel r2).map (fun p => (v :: p.1, p.2))
        | ']' :: r2 => some ([v], r2)
        | _ => none

/-- Read object fields up to the closing brace. -/
def parseFields : Nat → List Char → Option (List (String × JValue) × List Char)
  | 0, _ => none
  | fuel + 1, input =>
    match input with
    | c :: r =>
      if c = closeBrace then some ([], r)
      else if c = '\"' then
        match parseStrChars fuel r with
        | none => none
        | some (k, r1) =>
          match r1 with
          | ':' :: r2 =>
            match parseVal fuel r2 with
            | none => none
            | some (v, r3) =>
              match r3 with
              | ',' :: r4 =>
                (parseFields fuel r4).map
                  (fun p => ((String.mk k, v) :: p.1, p.2))
              | c2 :: r4 =>
                if c2 = closeBrace then some ([(String.mk k, v)], r4) else none
              | [] => none
          | _ => none
      else none
    | [] => none

end

mutual

/-- Parser fuel sufficient for one value. -/
def jfuel : JValue → Nat
  | .jnull => 1
  | .jbool _ => 1
  | .jnum _ => 1
  | .jstr s => s.length + 2
  | .jarr xs => ifuel xs + 1
  | .jobj kvs => ffuel kvs + 1

/-- Parser fuel sufficient for an element list. -/
def ifuel : List JValue → Nat
  | [] => 1
  | x :: xs => jfuel x + ifuel xs + 1

/-- Parser fuel sufficient for a field list. -/
def ffuel : List (String × JValue) → Nat
  | [] => 1
  | (k, v) :: rest => k.length + jfuel v + ffuel rest + 3

end

/-- The continuation after a value never starts with a digit. -/
def nonDigitHead : List Char → Prop
  | [] => True
  | c :: _ => isDig c = false

/-- A two-field certificate-like record with sorted keys. -/
def rec0 : List (String × JValue) :=
  [("device", .jstr "/dev/sdb"), ("model", .jstr "VendorX")]

end Shoonya

/-!
Theorems.
-/

namespace Shoonya

theorem writeAt_length (contents : List Nat) (pos n pat : Nat)
    (h : pos + n ≤ contents.length) :
    (writeAt contents pos n pat).length = contents.length := by
  simp only [writeAt, List.length_append, List.length_take,
    List.length_replicate, List.length_drop]
  omega

theorem overwriteLoop_eq (chunk pat : Nat) (hc : 0 < chunk) :
    ∀ n contents written size, size - written = n →
    contents.length = size → written ≤ size →
    overwriteLoop chunk pat contents written size
      = (contents.take written ++ List.replicate (size - written) pat, size) := by
  intro n
  induction n using Nat.strong_induction_on with
  | _ n ih =>
    intro contents written size hn hlen hle
    by_cases hlt : written < size
    · rw [overwriteLoop, dif_pos ⟨hlt, hc⟩]
      have ht1 : 1 ≤ min chunk (size - written) := by omega
      have ht2 : written + min chunk (size - written) ≤ size := by omega
      rw [ih (size - (written + min chunk (size - written))) (by omega) _ _ _
        rfl (by rw [writeAt_length] <;> omega) (by omega)]
      have htake : (writeAt contents written (min chunk (size - written)) pat).take
          (written + min chunk (size - written))
          = contents.take written ++ List.replicate (min chunk (size - written)) pat := by
        have hassoc : writeAt contents written (min chunk (size - written)) pat
            = (contents.take written ++ List.replicate (min chunk (size - written)) pat)
              ++ contents.drop (written + min chunk (size - written)) := by
          simp [writeAt, List.append_assoc]
        rw [hassoc]
        apply List.take_left'
        simp only [List.length_append, List.length_take, List.length_replicate]
        omega
      rw [htake, List.append_assoc, ← List.replicate_add]
      have h6 : min chunk (size - written) + (size - (written + min chunk (size - written)))
          = size - written := by omega
      rw [h6]
    · rw [overwriteLoop, dif_neg (by omega)]
      have hw : written = size := by omega
      have h7 : size - written = 0 := by omega
      have h8 : contents.take written = contents :=
        List.take_of_length_le (by omega)
      rw [h7, h8, hw]
      simp

theorem overwriteFileLoop_eq (chunk pat : Nat) (hc : 0 < chunk) :
    ∀ n contents written size, size - written = n →
    contents.length = size → written ≤ size → size / 10 ≠ 0 →
    overwriteFileLoop chunk pat contents written size
      = (contents.take written ++ List.replicate (size - written) pat, size, false) := by
  intro n
  induction n using Nat.strong_induction_on with
  | _ n ih =>
    intro contents written size hn hlen hle hdiv
    by_cases hlt : written < size
    · rw [overwriteFileLoop, dif_pos ⟨hlt, hc⟩]
      simp only [hdiv, if_false]
      have ht1 : 1 ≤ min chunk (size - written) := by omega
      have ht2 : written + min chunk (size - written) ≤ size := by omega
      rw [ih (size - (written + min chunk (size - written))) (by omega) _ _ _
        rfl (by rw [writeAt_length] <;> omega) (by omega) hdiv]
      have htake : (writeAt contents written (min chunk (size - written)) pat).take
          (written + min chunk (size - written))
          = contents.take written ++ List.replicate (min chunk (size - written)) pat := by
        have hassoc : writeAt contents written (min chunk (size - written)) pat
            = (contents.take written ++ List.replicate (min chunk (size - written)) pat)
              ++ contents.drop (written + min chunk (size - written)) := by
          simp [writeAt, List.append_assoc]
        rw [hassoc]
        apply List.take_left'
        simp only [List.length_append, List.length_take, List.length_replicate]
        omega
      rw [htake, List.append_assoc, ← List.replicate_add]
      have h6 : min chunk (size - written) + (size - (written + min chunk (size - written)))
          = size - written := by omega
      rw [h6]
    · rw [overwriteFileLoop, dif_neg (by omega)]
      have hw : written = size := by omega
      have h7 : size - written = 0 := by omega
      have h8 : contents.take written = contents :=
        List.take_of_length_le (by omega)
      rw [h7, h8, hw]
      simp

theorem overwriteFileLoop_small (chunk pat : Nat) (contents : List Nat)
    (h1 : 1 ≤ contents.length) (h2 : contents.length < 10)
    (h3 : contents.length ≤ chunk) :
    overwriteFileLoop chunk pat contents 0 contents.length
      = (List.replicate contents.length pat, contents.length, true) := by
  rw [overwriteFileLoop, dif_pos ⟨by omega, by omega⟩]
  have hdiv : contents.length / 10 = 0 := Nat.div_eq_of_lt h2
  simp only [hdiv, if_true]
  have hmin : min chunk (contents.length - 0) = contents.length := by omega
  simp only [Nat.sub_zero] at hmin ⊢
  rw [hmin]
  have hw : writeAt contents 0 contents.length pat
      = List.replicate contents.length pat := by
    simp [writeAt, List.drop_length]
  rw [hw]
  simp

end Shoonya

namespace Shoonya

theorem selectPurge_ne_ce (device : DeviceInfo)
    (henc : device.is_encrypted = false) :
    selectPurgeTechnique device ≠ SanitizationTechnique.cryptographicErase := by
  unfold selectPurgeTechnique
  simp only [henc]
  split_ifs <;> simp_all

theorem nistDecisionLogic_ne_ce (device : DeviceInfo)
    (sensitivity : DataSensitivity) (leavesControl : Bool)
    (henc : device.is_encrypted = false) :
    (nistDecisionLogic device sensitivity leavesControl).2
      ≠ SanitizationTechnique.cryptographicErase := by
  have hsel := selectPurge_ne_ce device henc
  unfold nistDecisionLogic
  split_ifs <;> first | decide | exact hsel

/-- C2 (code bug): on Scenario A (device NVMe, encrypted, always-on
encryption; answers reuse = yes, sensitivity = "high", leaves custody =
yes) the flowchart raises `ValueError` — `DataSensitivity` member values
are "Low"/"Moderate"/"High" but the code looks up
`sensitivity_choice.upper() = "HIGH"` — instead of returning a decision;
the decision table below the failed parse does select
(Purge, CryptographicErase) exactly as the claim states. -/
theorem scenario_a_raises_value_error_but_logic_selects_crypto_erase :
    runNistDecisionFlowchart devA true "high" true
      = Except.error (PyExc.valueError "HIGH")
    ∧ nistDecisionLogic devA DataSensitivity.high true
      = (SanitizationMethod.purge, SanitizationTechnique.cryptographicErase) := by
  constructor <;> rfl

/-- C3: for every device with transport in {ata, sata, nvme} and
`is_encrypted = false`, the decision flowchart never yields the
CryptographicErase technique for any policy answers, and neither does its
decision table for any parsed sensitivity. -/
theorem flowchart_never_crypto_erase_unencrypted
    (device : DeviceInfo) (willReuse leavesControl : Bool)
    (sensitivityChoice : String) (sensitivity : DataSensitivity)
    (hssd : pyLower device.transport ∈ ssdTransports)
    (henc : device.is_encrypted = false) :
    (runNistDecisionFlowchart device willReuse sensitivityChoice
        leavesControl).map Prod.snd
      ≠ Except.ok SanitizationTechnique.cryptographicErase
    ∧ (nistDecisionLogic device sensitivity leavesControl).2
      ≠ SanitizationTechnique.cryptographicErase := by
  refine ⟨?_, nistDecisionLogic_ne_ce device sensitivity leavesControl henc⟩
  unfold runNistDecisionFlowchart
  cases willReuse with
  | false => simp [Except.map]
  | true =>
    simp only [Bool.true_eq_false, if_false]
    cases hds : dataSensitivityOfValue (pyUpper sensitivityChoice) with
    | error e => simp [Except.map]
    | ok s =>
      simpa [Except.map] using nistDecisionLogic_ne_ce device s leavesControl henc

theorem flowchart_never_crypto_erase_unencrypted_witness :
    (runNistDecisionFlowchart devB false "low" false).map Prod.snd
      ≠ Except.ok SanitizationTechnique.cryptographicErase
    ∧ (nistDecisionLogic devB DataSensitivity.low false).2
      ≠ SanitizationTechnique.cryptographicErase :=
  flowchart_never_crypto_erase_unencrypted devB false false "low"
    DataSensitivity.low (by decide) (by decide)

/-- C4: with `will_reuse = false` the flowchart answers
(Destroy, PhysicalDestruction) for every device and every other policy
answer, and the execution stage of `safeerase.main` makes no
technique-execution call for a Destroy decision. -/
theorem no_reuse_always_destroy_and_never_dispatched (device : DeviceInfo)
    (sensitivityChoice : String) (leavesControl : Bool) :
    runNistDecisionFlowchart device false sensitivityChoice leavesControl
      = Except.ok (SanitizationMethod.destroy,
          SanitizationTechnique.physicalDestruction)
    ∧ ∀ t, mainExecutionStage SanitizationMethod.destroy t = none :=
  ⟨rfl, fun _ => rfl⟩

/-- C7: `validate_method_choice` returns a hard failure exactly when
CryptographicErase is requested on a device with `is_encrypted = false`;
choosing Clear with its SinglePassOverwrite technique on an
nvme/sata/ata transport succeeds with the SSD warning emitted. -/
theorem validate_choice_failure_iff_ce_unencrypted (device : DeviceInfo)
    (method : SanitizationMethod) (technique : SanitizationTechnique) :
    ((validateMethodChoice device method technique).1 = false
      ↔ technique = SanitizationTechnique.cryptographicErase
        ∧ device.is_encrypted = false)
    ∧ (pyLower device.transport ∈ ssdTransports →
        (validateMethodChoice device SanitizationMethod.clear
            SanitizationTechnique.singlePassOverwrite).1 = true
        ∧ "Consider using Purge method for SSDs - Clear may not reach all storage areas"
            ∈ (validateMethodChoice device SanitizationMethod.clear
                SanitizationTechnique.singlePassOverwrite).2) := by
  constructor
  · by_cases hc : technique = SanitizationTechnique.cryptographicErase
        ∧ device.is_encrypted = false <;>
      simp [validateMethodChoice, hc]
  · intro hssd
    constructor <;> simp [validateMethodChoice, hssd]

theorem validate_choice_failure_iff_ce_unencrypted_witness :
    ((validateMethodChoice devB SanitizationMethod.clear
        SanitizationTechnique.singlePassOverwrite).1 = false
      ↔ SanitizationTechnique.singlePassOverwrite
          = SanitizationTechnique.cryptographicErase
        ∧ devB.is_encrypted = false)
    ∧ ((validateMethodChoice devB SanitizationMethod.clear
          SanitizationTechnique.singlePassOverwrite).1 = true
        ∧ "Consider using Purge method for SSDs - Clear may not reach all storage areas"
            ∈ (validateMethodChoice devB SanitizationMethod.clear
                SanitizationTechnique.singlePassOverwrite).2) :=
  ⟨(validate_choice_failure_iff_ce_unencrypted devB SanitizationMethod.clear
      SanitizationTechnique.singlePassOverwrite).1,
   (validate_choice_failure_iff_ce_unencrypted devB SanitizationMethod.clear
      SanitizationTechnique.singlePassOverwrite).2 (by decide)⟩

/-- C9: `verify_sanitization` returns True and stamps the result status
"passed" for every device and result; the failed branch is unreachable. -/
theorem verify_sanitization_always_passes (device : DeviceInfo)
    (result : SanitizationResult) :
    (verifySanitization device result).1 = true
    ∧ (verifySanitization device result).2.1.verification_status = "passed" :=
  ⟨rfl, rfl⟩

/-- C1 (code bug): with `SHOONYA_DISABLE_SAFETY_CHECKS` set,
`RealDispatcher.execute_wipe` runs the Clear engine on a mounted critical
system partition with the device checks skipped and the confirmation
prompt never shown; with the flag unset the same device is blocked by the
device gate before any prompt. -/
theorem real_mode_gates_bypassed_by_disable_flag :
    executeWipe envDisabled devMounted "" SanitizationMethod.clear true
      = (true, ⟨false, false, true⟩)
    ∧ executeWipe envEnabled devMounted "YES" SanitizationMethod.clear true
      = (false, ⟨true, false, false⟩) := by
  constructor <;> rfl

/-- C8: the simulated SinglePassOverwrite executor (`clear_overwrite`)
writes exactly N = extent length pattern bytes in 1 MiB chunks, reports
`bytes_written = N`, and read-back yields only the pattern; the sandbox
`overwrite_file` does the same and ends with flush/fsync whenever the
extent is at least 10 bytes. -/
theorem single_pass_overwrite_full_extent (contents : List Nat) :
    clearOverwrite contents
      = ⟨true, contents.length, List.replicate contents.length 0⟩
    ∧ (10 ≤ contents.length →
        overwriteFile 0 (1024 * 1024) contents
          = ⟨true, some contents.length, true,
             List.replicate contents.length 0⟩) := by
  constructor
  · unfold clearOverwrite
    rw [overwriteLoop_eq (1024 * 1024) 0 (by norm_num) (contents.length - 0)
      contents 0 contents.length rfl rfl (Nat.zero_le _)]
    simp
  · intro h10
    have hdiv : contents.length / 10 ≠ 0 := by
      have hge : (1 : Nat) ≤ contents.length / 10 :=
        (Nat.one_le_div_iff (by norm_num)).2 h10
      omega
    unfold overwriteFile
    rw [overwriteFileLoop_eq (1024 * 1024) 0 (by norm_num)
      (contents.length - 0) contents 0 contents.length rfl rfl
      (Nat.zero_le _) hdiv]
    simp

theorem single_pass_overwrite_full_extent_witness :
    clearOverwrite sample12
      = ⟨true, sample12.length, List.replicate sample12.length 0⟩
    ∧ overwriteFile 0 (1024 * 1024) sample12
      = ⟨true, some sample12.length, true,
         List.replicate sample12.length 0⟩ :=
  ⟨(single_pass_overwrite_full_extent sample12).1,
   (single_pass_overwrite_full_extent sample12).2 (by decide)⟩

/-- C10: on an extent of 1 to 9 bytes the sandbox `overwrite_file` fully
overwrites the extent with the pattern but then divides by
`size // 10 = 0` in its progress computation; the ZeroDivisionError is
caught and the call reports `success = False` with no bytes_written and
no fsync. -/
theorem sandbox_overwrite_small_extent_fails (pat : Nat)
    (contents : List Nat) (h1 : 1 ≤ contents.length)
    (h2 : contents.length < 10) :
    overwriteFile pat (1024 * 1024) contents
      = ⟨false, none, false, List.replicate contents.length pat⟩ := by
  unfold overwriteFile
  rw [overwriteFileLoop_small (1024 * 1024) pat contents h1 h2 (by omega)]

theorem sandbox_overwrite_small_extent_fails_witness :
    overwriteFile 0 (1024 * 1024) sample3
      = ⟨false, none, false, List.replicate sample3.length 0⟩ :=
  sandbox_overwrite_small_extent_fails 0 sample3 (by decide) (by decide)

end Shoonya

namespace Shoonya

theorem char_toNat_valid (c : Char) :
    c.toNat < 55296 ∨ (57343 < c.toNat ∧ c.toNat < 1114112) := by
  rcases c.valid with h | ⟨h1, h2⟩
  · exact Or.inl (by exact_mod_cast h)
  · exact Or.inr ⟨by exact_mod_cast h1, by exact_mod_cast h2⟩

theorem toNat_ofNat_valid {m : Nat} (h : m.isValidChar) :
    (Char.ofNat m).toNat = m := by
  rw [Char.ofNat, dif_pos h]
  rfl

theorem toNat_ofNat_lt {m : Nat} (h : m < 55296) : (Char.ofNat m).toNat = m :=
  toNat_ofNat_valid (Or.inl h)

theorem hexVal_hexDigitChar {k : Nat} (h : k < 16) :
    hexVal (hexDigitChar k) = k := by
  unfold hexVal hexDigitChar
  by_cases h10 : k < 10
  · rw [if_pos h10, toNat_ofNat_lt (by omega)]
    rw [if_pos (by omega)]
    omega
  · rw [if_neg h10, toNat_ofNat_lt (by omega)]
    rw [if_neg (by omega)]
    omega

theorem hex4_recompose {n : Nat} (h : n < 65536) :
    hexVal (hexDigitChar (n / 4096 % 16)) * 4096
      + hexVal (hexDigitChar (n / 256 % 16)) * 256
      + hexVal (hexDigitChar (n / 16 % 16)) * 16
      + hexVal (hexDigitChar (n % 16)) = n := by
  rw [hexVal_hexDigitChar (Nat.mod_lt _ (by norm_num)),
      hexVal_hexDigitChar (Nat.mod_lt _ (by norm_num)),
      hexVal_hexDigitChar (Nat.mod_lt _ (by norm_num)),
      hexVal_hexDigitChar (Nat.mod_lt _ (by norm_num))]
  omega

theorem natDigitsAux_all_digits :
    ∀ fuel n, ∀ c ∈ natDigitsAux fuel n, isDig c = true := by
  intro fuel
  induction fuel with
  | zero => intro n c hc; simp [natDigitsAux] at hc
  | succ f ih =>
    intro n c hc
    by_cases hn : n = 0
    · simp [natDigitsAux, hn] at hc
    · rw [natDigitsAux, if_neg hn] at hc
      rcases List.mem_append.1 hc with h1 | h2
      · exact ih _ c h1
      · have : c = Char.ofNat (48 + n % 10) := by simpa using h2
        subst this
        have hm : n % 10 < 10 := Nat.mod_lt _ (by norm_num)
        simp [isDig, toNat_ofNat_lt (show 48 + n % 10 < 55296 by omega)]
        omega

theorem natDigits_all_digits (n : Nat) : ∀ c ∈ natDigits n, isDig c = true := by
  intro c hc
  unfold natDigits at hc
  by_cases hn : n = 0
  · rw [if_pos hn] at hc
    have : c = '0' := by simpa using hc
    subst this
    decide
  · rw [if_neg hn] at hc
    exact natDigitsAux_all_digits n n c hc

theorem natDigits_ne_nil (n : Nat) : natDigits n ≠ [] := by
  unfold natDigits
  by_cases hn : n = 0
  · simp [hn]
  · rw [if_neg hn]
    cases n with
    | zero => omega
    | succ m =>
      rw [natDigitsAux, if_neg hn]
      simp

theorem foldl_natDigitsAux :
    ∀ fuel n acc, n ≤ fuel →
      List.foldl (fun a c => a * 10 + (c.toNat - 48)) acc (natDigitsAux fuel n)
        = acc * 10 ^ (natDigitsAux fuel n).length + n := by
  intro fuel
  induction fuel with
  | zero =>
    intro n acc hle
    have : n = 0 := by omega
    simp [natDigitsAux, this]
  | succ f ih =>
    intro n acc hle
    by_cases hn : n = 0
    · simp [natDigitsAux, hn]
    · rw [natDigitsAux, if_neg hn]
      rw [List.foldl_append]
      rw [ih (n / 10) acc (by omega)]
      have ht : (Char.ofNat (48 + n % 10)).toNat = 48 + n % 10 :=
        toNat_ofNat_lt (by have := Nat.mod_lt n (show 0 < 10 by norm_num); omega)
      simp only [List.foldl_cons, List.foldl_nil, ht, List.length_append,
        List.length_cons, List.length_nil]
      rw [pow_succ, ← mul_assoc]
      generalize acc * 10 ^ (natDigitsAux f (n / 10)).length = Q
      omega

theorem natFromDigits_natDigits (n : Nat) :
    natFromDigits (natDigits n) = n := by
  unfold natDigits natFromDigits
  by_cases hn : n = 0
  · simp [hn]
  · rw [if_neg hn]
    rw [foldl_natDigitsAux n n 0 (Nat.le_refl n)]
    simp

theorem takeWhile_append_not {p : Char → Bool} :
    ∀ (A r : List Char), (∀ a ∈ A, p a = true) →
      (match r with | [] => True | c :: _ => p c = false) →
      (A ++ r).takeWhile p = A ∧ (A ++ r).dropWhile p = r := by
  intro A
  induction A with
  | nil =>
    intro r _ hr
    cases r with
    | nil => simp
    | cons c t =>
      simp only [List.nil_append]
      constructor
      · rw [List.takeWhile_cons]
        simp [hr]
      · rw [List.dropWhile_cons]
        simp [hr]
  | cons a A ih =>
    intro r hA hr
    have hpa : p a = true := hA a (by simp)
    have hrec := ih r (fun x hx => hA x (by simp [hx])) hr
    constructor
    · rw [List.cons_append, List.takeWhile_cons, hpa]
      simp [hrec.1]
    · rw [List.cons_append, List.dropWhile_cons, hpa]
      simp [hrec.2]

theorem parseNat_enc (n : Nat) (rest : List Char) (h : nonDigitHead rest) :
    parseNatRun (natDigits n ++ rest) = some (n, rest) := by
  have hw := takeWhile_append_not (natDigits n) rest (natDigits_all_digits n)
    (by cases rest with
        | nil => trivial
        | cons c t => exact h)
  unfold parseNatRun
  rw [hw.1, hw.2]
  rw [if_neg (by simp [natDigits_ne_nil n])]
  rw [natFromDigits_natDigits]

end Shoonya

namespace Shoonya

theorem pStr_plain (fuel : Nat) (c : Char) (r : List Char)
    (h1 : c ≠ '\"') (h2 : c ≠ '\\') :
    parseStrChars (fuel + 1) (c :: r)
      = (parseStrChars fuel r).map (fun p => (c :: p.1, p.2)) := by
  conv_lhs => rw [parseStrChars.eq_def]
  split
  · omega
  · rename_i f' heq
    have hf : f' = fuel := by omega
    subst hf
    split
    · rename_i heq2
      exact absurd (List.cons.inj heq2).1 h1
    · rename_i heq2
      injection heq2 with hc _
      exact absurd hc h2
    · rename_i heq2
      injection heq2 with hc hr
      rw [hc, hr]
    · rename_i heq2
      exact absurd heq2 (by simp)

theorem pStr_u_step (f : Nat) (a b c d : Char) (T : List Char) :
    parseStrChars (f + 1) ('\\' :: 'u' :: a :: b :: c :: d :: T)
      = (let m := hexVal a * 4096 + hexVal b * 256 + hexVal c * 16 + hexVal d
         if 55296 ≤ m ∧ m < 56320 then
           match T with
           | '\\' :: 'u' :: e1 :: e2 :: e3 :: e4 :: r3 =>
             let m2 := hexVal e1 * 4096 + hexVal e2 * 256
               + hexVal e3 * 16 + hexVal e4
             (parseStrChars f r3).map
               (fun p =>
                 (Char.ofNat (65536 + (m - 55296) * 1024 + (m2 - 56320)) :: p.1,
                  p.2))
           | _ => none
         else (parseStrChars f T).map (fun p => (Char.ofNat m :: p.1, p.2))) :=
  rfl

theorem parseStr_enc :
    ∀ (s : List Char) (fuel : Nat) (rest : List Char), s.length < fuel →
      parseStrChars fuel ((s.map escChar).flatten ++ '\"' :: rest)
        = some (s, rest) := by
  intro s
  induction s with
  | nil =>
    intro fuel rest hf
    cases fuel with
    | zero => omega
    | succ f =>
      simp only [List.map_nil, List.flatten_nil, List.nil_append]
      rfl
  | cons c s ih =>
    intro fuel rest hf
    cases fuel with
    | zero => omega
    | succ f =>
    have hT : ((c :: s).map escChar).flatten ++ '\"' :: rest
        = escChar c ++ ((s.map escChar).flatten ++ '\"' :: rest) := by
      simp [List.append_assoc]
    rw [hT]
    have hrec := ih f rest (by simp at hf; omega)
    set T := (s.map escChar).flatten ++ '\"' :: rest with hTdef
    by_cases h1 : c = '\\'
    · have hesc : escChar c = ['\\', '\\'] := by simp [escChar, h1]
      rw [hesc]
      simp only [List.cons_append, List.nil_append]
      have hstep : parseStrChars (f + 1) ('\\' :: '\\' :: T)
          = (parseStrChars f T).map (fun p => ('\\' :: p.1, p.2)) := rfl
      rw [hstep, hrec, h1]
      rfl
    · by_cases h2 : c = '\"'
      · have hesc : escChar c = ['\\', '\"'] := by simp [escChar, h1, h2]
        rw [hesc]
        simp only [List.cons_append, List.nil_append]
        have hstep : parseStrChars (f + 1) ('\\' :: '\"' :: T)
            = (parseStrChars f T).map (fun p => ('\"' :: p.1, p.2)) := rfl
        rw [hstep, hrec, h2]
        rfl
      · by_cases h3 : c = '\n'
        · have hesc : escChar c = ['\\', 'n'] := by simp [escChar, h1, h2, h3]
          rw [hesc]
          simp only [List.cons_append, List.nil_append]
          have hstep : parseStrChars (f + 1) ('\\' :: 'n' :: T)
              = (parseStrChars f T).map (fun p => ('\n' :: p.1, p.2)) := rfl
          rw [hstep, hrec, h3]
          rfl
        · by_cases h4 : c = '\t'
          · have hesc : escChar c = ['\\', 't'] := by
              simp [escChar, h1, h2, h3, h4]
            rw [hesc]
            simp only [List.cons_append, List.nil_append]
            have hstep : parseStrChars (f + 1) ('\\' :: 't' :: T)
                = (parseStrChars f T).map (fun p => ('\t' :: p.1, p.2)) := rfl
            rw [hstep, hrec, h4]
            rfl
          · by_cases h5 : c = '\r'
            · have hesc : escChar c = ['\\', 'r'] := by
                simp [escChar, h1, h2, h3, h4, h5]
              rw [hesc]
              simp only [List.cons_append, List.nil_append]
              have hstep : parseStrChars (f + 1) ('\\' :: 'r' :: T)
                  = (parseStrChars f T).map (fun p => ('\r' :: p.1, p.2)) := rfl
              rw [hstep, hrec, h5]
              rfl
            · by_cases h6 : c = Char.ofNat 8
              · have hesc : escChar c = ['\\', 'b'] := by
                  simp [escChar, h1, h2, h3, h4, h5, h6]
                rw [hesc]
                simp only [List.cons_append, List.nil_append]
                have hstep : parseStrChars (f + 1) ('\\' :: 'b' :: T)
                    = (parseStrChars f T).map
                        (fun p => (Char.ofNat 8 :: p.1, p.2)) := rfl
                rw [hstep, hrec, h6]
                rfl
              · by_cases h7 : c = Char.ofNat 12
                · have hesc : escChar c = ['\\', 'f'] := by
                    simp [escChar, h1, h2, h3, h4, h5, h6, h7]
                  rw [hesc]
                  simp only [List.cons_append, List.nil_append]
                  have hstep : parseStrChars (f + 1) ('\\' :: 'f' :: T)
                      = (parseStrChars f T).map
                          (fun p => (Char.ofNat 12 :: p.1, p.2)) := rfl
                  rw [hstep, hrec, h7]
                  rfl
                · by_cases h8 : c.toNat < 32 ∨ 126 < c.toNat
                  · have hesc : escChar c = uescape c.toNat := by
                      simp [escChar, h1, h2, h3, h4, h5, h6, h7, h8]
                    rw [hesc]
                    by_cases hbmp : c.toNat < 65536
                    · rw [uescape, if_pos hbmp]
                      simp only [hex4, List.cons_append, List.nil_append]
                      rw [pStr_u_step]
                      simp only [hex4_recompose hbmp]
                      rw [if_neg (by
                        rcases char_toNat_valid c with hv | hv <;> omega)]
                      rw [hrec, Char.ofNat_toNat]
                      rfl
                    · rw [uescape, if_neg hbmp]
                      have hv2 : c.toNat < 1114112 := by
                        rcases char_toNat_valid c with hv | hv <;> omega
                      simp only [hex4, List.cons_append, List.nil_append,
                        List.append_assoc]
                      rw [pStr_u_step]
                      have hm1lt : 55296 + (c.toNat - 65536) / 1024 < 65536 := by
                        omega
                      simp only [hex4_recompose hm1lt]
                      rw [if_pos (by omega)]
                      have hm2lt : 56320 + (c.toNat - 65536) % 1024 < 65536 := by
                        omega
                      simp only [hex4_recompose hm2lt]
                      rw [hrec]
                      have hchar : 65536
                          + (55296 + (c.toNat - 65536) / 1024 - 55296) * 1024
                          + (56320 + (c.toNat - 65536) % 1024 - 56320)
                          = c.toNat := by omega
                      rw [hchar, Char.ofNat_toNat]
                      rfl
                  · have hesc : escChar c = [c] := by
                      simp [escChar, h1, h2, h3, h4, h5, h6, h7, h8]
                    rw [hesc]
                    simp only [List.cons_append, List.nil_append]
                    rw [pStr_plain f c T h2 h1, hrec]
                    rfl

end Shoonya

namespace Shoonya

theorem parseVal_digit_step (fuel : Nat) (c : Char) (r : List Char)
    (hd : isDig c = true) :
    parseVal (fuel + 1) (c :: r)
      = (match parseNatRun (c :: r) with
         | some (n, r2) => some (.jnum (n : Int), r2)
         | none => none) := by
  have hob : c ≠ openBrace := by
    intro h; rw [h] at hd; exact absurd hd (by decide)
  conv_lhs => rw [parseVal.eq_def]
  split
  · omega
  · rename_i f' heq
    have hf : f' = fuel := by omega
    subst hf
    split
    · rename_i heq2
      have hc : c = 'n' := (List.cons.inj heq2).1
      rw [hc] at hd; exact absurd hd (by decide)
    · rename_i heq2
      have hc : c = 't' := (List.cons.inj heq2).1
      rw [hc] at hd; exact absurd hd (by decide)
    · rename_i heq2
      have hc : c = 'f' := (List.cons.inj heq2).1
      rw [hc] at hd; exact absurd hd (by decide)
    · rename_i heq2
      have hc : c = '\"' := (List.cons.inj heq2).1
      rw [hc] at hd; exact absurd hd (by decide)
    · rename_i heq2
      have hc : c = '[' := (List.cons.inj heq2).1
      rw [hc] at hd; exact absurd hd (by decide)
    · rename_i heq2
      have hc : c = '-' := (List.cons.inj heq2).1
      rw [hc] at hd; exact absurd hd (by decide)
    · rename_i heq2
      injection heq2 with hc hr
      rw [← hc, ← hr]
      rw [if_neg hob, if_pos hd]
    · rename_i heq2
      exact absurd heq2 (by simp)

theorem parseItems_step (fuel : Nat) (input : List Char)
    (h : ∀ r', input ≠ ']' :: r') :
    parseItems (fuel + 1) input
      = (match parseVal fuel input with
         | none => none
         | some (v, r1) =>
           match r1 with
           | ',' :: r2 => (parseItems fuel r2).map (fun p => (v :: p.1, p.2))
           | ']' :: r2 => some ([v], r2)
           | _ => none) := by
  conv_lhs => rw [parseItems.eq_def]
  split
  · omega
  · rename_i f' heq
    have hf : f' = fuel := by omega
    subst hf
    split
    · rename_i r2
      exact absurd rfl (h r2)
    · rfl

theorem parseFields_quote_step (f : Nat) (r : List Char) :
    parseFields (f + 1) ('\"' :: r)
      = (match parseStrChars f r with
         | none => none
         | some (k, r1) =>
           match r1 with
           | ':' :: r2 =>
             match parseVal f r2 with
             | none => none
             | some (v, r3) =>
               match r3 with
               | ',' :: r4 =>
                 (parseFields f r4).map
                   (fun p => ((String.mk k, v) :: p.1, p.2))
               | c2 :: r4 =>
                 if c2 = closeBrace then some ([(String.mk k, v)], r4)
                 else none
               | [] => none
           | _ => none) := rfl

theorem encVal_ne_rb (v : JValue) (rest : List Char) (r' : List Char) :
    encVal v ++ rest ≠ ']' :: r' := by
  cases v with
  | jnull => simp [encVal]
  | jbool b => cases b <;> simp [encVal]
  | jnum n =>
    simp only [encVal, encInt]
    by_cases hneg : n < 0
    · rw [if_pos hneg]; simp
    · rw [if_neg hneg]
      intro hcontra
      cases hnd : natDigits n.toNat with
      | nil => exact natDigits_ne_nil _ hnd
      | cons c cs =>
        rw [hnd] at hcontra
        have hc : c = ']' := by
          have := (List.cons.inj (by simpa using hcontra)).1
          exact this
        have hdig : isDig c = true :=
          natDigits_all_digits _ c (by rw [hnd]; simp)
        rw [hc] at hdig
        exact absurd hdig (by decide)
  | jstr s => simp [encVal, encStr]
  | jarr xs => simp [encVal]
  | jobj kvs =>
    simp only [encVal]
    intro h
    have : openBrace = ']' := (List.cons.inj h).1
    exact absurd this (by decide)

theorem jfuel_pos : ∀ v : JValue, 1 ≤ jfuel v := by
  intro v
  cases v <;> simp [jfuel] <;> omega

theorem ifuel_pos : ∀ xs : List JValue, 1 ≤ ifuel xs := by
  intro xs
  cases xs <;> simp [ifuel]

theorem ffuel_pos : ∀ kvs : List (String × JValue), 1 ≤ ffuel kvs := by
  intro kvs
  cases kvs with
  | nil => simp [ffuel]
  | cons kv rest =>
    obtain ⟨k, v⟩ := kv
    simp [ffuel]

end Shoonya

namespace Shoonya

theorem parse_enc_triple : ∀ N : Nat,
    (∀ v : JValue, sizeOf v ≤ N →
      ∀ fuel rest, jfuel v ≤ fuel → nonDigitHead rest →
        parseVal fuel (encVal v ++ rest) = some (v, rest))
    ∧ (∀ xs : List JValue, sizeOf xs ≤ N →
      ∀ fuel rest, ifuel xs ≤ fuel →
        parseItems fuel (encItems xs ++ rest) = some (xs, rest))
    ∧ (∀ kvs : List (String × JValue), sizeOf kvs ≤ N →
      ∀ fuel rest, ffuel kvs ≤ fuel →
        parseFields fuel (encFields kvs ++ rest) = some (kvs, rest)) := by
  intro N
  induction N using Nat.strong_induction_on with
  | _ N ih =>
  refine ⟨?_, ?_, ?_⟩
  · intro v hsz fuel rest hfu hrest
    cases v with
    | jnull =>
      cases fuel with
      | zero => simp [jfuel] at hfu
      | succ f => rfl
    | jbool b =>
      cases fuel with
      | zero => simp [jfuel] at hfu
      | succ f => cases b <;> rfl
    | jnum n =>
      cases fuel with
      | zero => simp [jfuel] at hfu
      | succ f =>
        simp only [encVal, encInt]
        by_cases hneg : n < 0
        · rw [if_pos hneg]
          simp only [List.cons_append]
          rw [show parseVal (f + 1) ('-' :: (natDigits n.natAbs ++ rest))
              = (match parseNatRun (natDigits n.natAbs ++ rest) with
                 | some (m, r2) => some (.jnum (-(m : Int)), r2)
                 | none => none) from rfl]
          rw [parseNat_enc n.natAbs rest hrest]
          dsimp only
          have hval : (-(n.natAbs : Int)) = n := by omega
          rw [hval]
        · rw [if_neg hneg]
          cases hnd : natDigits n.toNat with
          | nil => exact absurd hnd (natDigits_ne_nil _)
          | cons c cs =>
            have hdig : isDig c = true :=
              natDigits_all_digits _ c (by rw [hnd]; simp)
            simp only [List.cons_append]
            rw [parseVal_digit_step f c (cs ++ rest) hdig]
            have hres : parseNatRun (c :: (cs ++ rest)) = some (n.toNat, rest) := by
              have h1 : c :: (cs ++ rest) = natDigits n.toNat ++ rest := by
                rw [hnd]; simp
              rw [h1, parseNat_enc n.toNat rest hrest]
            rw [hres]
            dsimp only
            have hval : ((n.toNat : Int)) = n := by omega
            rw [hval]
    | jstr s =>
      cases fuel with
      | zero => simp [jfuel] at hfu
      | succ f =>
        simp only [encVal, encStr, List.cons_append, List.append_assoc,
          List.singleton_append, List.nil_append]
        rw [show parseVal (f + 1)
            ('\"' :: ((s.data.map escChar).flatten ++ '\"' :: rest))
            = (parseStrChars f ((s.data.map escChar).flatten ++ '\"' :: rest)).map
                (fun p => (.jstr (String.mk p.1), p.2)) from rfl]
        have hlen : s.data.length < f := by
          simp only [jfuel] at hfu
          have : s.length = s.data.length := rfl
          omega
        rw [parseStr_enc s.data f rest hlen]
        rfl
    | jarr xs =>
      cases fuel with
      | zero => simp [jfuel] at hfu
      | succ f =>
        simp only [encVal, List.cons_append]
        rw [show parseVal (f + 1) ('[' :: (encItems xs ++ rest))
            = (parseItems f (encItems xs ++ rest)).map
                (fun p => (.jarr p.1, p.2)) from rfl]
        have hlt : sizeOf xs < N := by
          have hspec : sizeOf (JValue.jarr xs) = 1 + sizeOf xs := by
            simp
          omega
        have hfu' : ifuel xs ≤ f := by simp only [jfuel] at hfu; omega
        rw [(ih (sizeOf xs) hlt).2.1 xs (Nat.le_refl _) f rest hfu']
        rfl
    | jobj kvs =>
      cases fuel with
      | zero => simp [jfuel] at hfu
      | succ f =>
        simp only [encVal, List.cons_append]
        rw [show parseVal (f + 1) (openBrace :: (encFields kvs ++ rest))
            = (parseFields f (encFields kvs ++ rest)).map
                (fun p => (.jobj p.1, p.2)) from rfl]
        have hlt : sizeOf kvs < N := by
          have hspec : sizeOf (JValue.jobj kvs) = 1 + sizeOf kvs := by
            simp
          omega
        have hfu' : ffuel kvs ≤ f := by simp only [jfuel] at hfu; omega
        rw [(ih (sizeOf kvs) hlt).2.2 kvs (Nat.le_refl _) f rest hfu']
        rfl
  · intro xs hsz fuel rest hfu
    cases xs with
    | nil =>
      cases fuel with
      | zero => simp [ifuel] at hfu
      | succ f => rfl
    | cons x xs' =>
      cases fuel with
      | zero => simp [ifuel] at hfu
      | succ f =>
        have hltx : sizeOf x < N := by
          have : sizeOf (x :: xs') = 1 + sizeOf x + sizeOf xs' := by simp
          omega
        cases xs' with
        | nil =>
          have henc : encItems [x] ++ rest = encVal x ++ (']' :: rest) := by
            simp [encItems]
          rw [henc, parseItems_step f _ (encVal_ne_rb x (']' :: rest))]
          have hfux : jfuel x ≤ f := by
            simp only [ifuel] at hfu
            omega
          rw [(ih (sizeOf x) hltx).1 x (Nat.le_refl _) f (']' :: rest) hfux
            (by show isDig ']' = false; decide)]
          rfl
        | cons y rest' =>
          have henc : encItems (x :: y :: rest') ++ rest
              = encVal x ++ (',' :: (encItems (y :: rest') ++ rest)) := by
            simp [encItems]
          rw [henc, parseItems_step f _ (encVal_ne_rb x _)]
          have hfux : jfuel x ≤ f := by
            simp only [ifuel] at hfu
            have := ifuel_pos (y :: rest')
            omega
          rw [(ih (sizeOf x) hltx).1 x (Nat.le_refl _) f
            (',' :: (encItems (y :: rest') ++ rest)) hfux
            (by show isDig ',' = false; decide)]
          simp only []
          have hlty : sizeOf (y :: rest') < N := by
            have : sizeOf (x :: y :: rest')
                = 1 + sizeOf x + sizeOf (y :: rest') := by simp
            omega
          have hfuy : ifuel (y :: rest') ≤ f := by
            have hexp : ifuel (y :: rest') = jfuel y + ifuel rest' + 1 := by
              simp [ifuel]
            simp only [ifuel] at hfu
            have := jfuel_pos x
            omega
          rw [(ih (sizeOf (y :: rest')) hlty).2.1 (y :: rest') (Nat.le_refl _)
            f rest hfuy]
          rfl
  · intro kvs hsz fuel rest hfu
    cases kvs with
    | nil =>
      cases fuel with
      | zero => simp [ffuel] at hfu
      | succ f => rfl
    | cons kv kvs' =>
      obtain ⟨k, v⟩ := kv
      cases fuel with
      | zero => simp [ffuel] at hfu
      | succ f =>
        have hltv : sizeOf v < N := by
          have h1 : sizeOf ((k, v) :: kvs')
              = 1 + sizeOf (k, v) + sizeOf kvs' := by simp
          have h2 : sizeOf (k, v) = 1 + sizeOf k + sizeOf v := by simp
          omega
        have hklen : k.data.length < f := by
          simp only [ffuel] at hfu
          have hk : k.length = k.data.length := rfl
          have := jfuel_pos v
          have := ffuel_pos kvs'
          omega
        have hfuv : jfuel v ≤ f := by
          simp only [ffuel] at hfu
          have := ffuel_pos kvs'
          omega
        cases kvs' with
        | nil =>
          have henc : encFields [(k, v)] ++ rest
              = '\"' :: ((k.data.map escChar).flatten
                  ++ '\"' :: (':' :: (encVal v ++ (closeBrace :: rest)))) := by
            simp [encFields, encStr]
          rw [henc, parseFields_quote_step, parseStr_enc k.data f _ hklen]
          simp only []
          rw [(ih (sizeOf v) hltv).1 v (Nat.le_refl _) f (closeBrace :: rest)
            hfuv (by show isDig closeBrace = false; decide)]
          simp only []
          rfl
        | cons e rest' =>
          have henc : encFields ((k, v) :: e :: rest') ++ rest
              = '\"' :: ((k.data.map escChar).flatten
                  ++ '\"' :: (':' :: (encVal v
                      ++ (',' :: (encFields (e :: rest') ++ rest))))) := by
            simp [encFields, encStr]
          rw [henc, parseFields_quote_step, parseStr_enc k.data f _ hklen]
          simp only []
          rw [(ih (sizeOf v) hltv).1 v (Nat.le_refl _) f
            (',' :: (encFields (e :: rest') ++ rest)) hfuv
            (by show isDig ',' = false; decide)]
          simp only []
          have hlt2 : sizeOf (e :: rest') < N := by
            have h1 : sizeOf ((k, v) :: e :: rest')
                = 1 + sizeOf (k, v) + sizeOf (e :: rest') := by simp
            omega
          have hfu2 : ffuel (e :: rest') ≤ f := by
            have hexp : ffuel (e :: rest')
                = e.1.length + jfuel e.2 + ffuel rest' + 3 := by
              simp [ffuel]
            simp only [ffuel] at hfu
            have := jfuel_pos v
            omega
          rw [(ih (sizeOf (e :: rest')) hlt2).2.2 (e :: rest') (Nat.le_refl _)
            f rest hfu2]
          rfl

end Shoonya

namespace Shoonya

theorem parseVal_encVal (v : JValue) (fuel : Nat) (h : jfuel v ≤ fuel) :
    parseVal fuel (encVal v) = some (v, []) := by
  have := (parse_enc_triple (sizeOf v)).1 v (Nat.le_refl _) fuel [] h trivial
  simpa using this

theorem encVal_inj {v w : JValue} (h : encVal v = encVal w) : v = w := by
  have hv := parseVal_encVal v (max (jfuel v) (jfuel w)) (Nat.le_max_left _ _)
  have hw := parseVal_encVal w (max (jfuel v) (jfuel w)) (Nat.le_max_right _ _)
  rw [h] at hv
  have := hv.symm.trans hw
  injection this with h1
  exact congrArg Prod.fst h1

theorem strSorted_tail {x : String} {xs : List String}
    (h : strSorted (x :: xs) = true) : strSorted xs = true := by
  cases xs with
  | nil => rfl
  | cons b t =>
    rw [strSorted, Bool.and_eq_true] at h
    exact h.2

theorem keysSorted_tail {a : String × JValue} {l : List (String × JValue)}
    (h : keysSorted (a :: l) = true) : keysSorted l = true := by
  unfold keysSorted at *
  simp only [List.map_cons] at h
  exact strSorted_tail h

theorem strLtAux_asymm_aux :
    ∀ x y : List Char, strLtAux x y = true → strLtAux y x = false := by
  intro x
  induction x with
  | nil =>
    intro y h
    cases y with
    | nil => exact absurd h (by simp [strLtAux])
    | cons c cs => rfl
  | cons a as ih =>
    intro y h
    cases y with
    | nil => exact absurd h (by simp [strLtAux])
    | cons b bs =>
      rw [strLtAux] at h ⊢
      by_cases h1 : a.toNat < b.toNat
      · rw [if_neg (by omega), if_pos h1]
      · rw [if_neg h1] at h
        by_cases h2 : b.toNat < a.toNat
        · rw [if_pos h2] at h
          exact absurd h (by simp)
        · rw [if_neg h2] at h
          rw [if_neg h2, if_neg h1, ih bs h]

theorem strLtAux_asymm {a b : String} (h : strLtB a b = true) :
    strLtB b a = false :=
  strLtAux_asymm_aux a.data b.data h

theorem insertSorted_of_head {a : String × JValue} {l : List (String × JValue)}
    (h : keysSorted (a :: l) = true) : insertSorted a l = a :: l := by
  cases l with
  | nil => rfl
  | cons b t =>
    unfold keysSorted at h
    simp only [List.map_cons] at h
    rw [strSorted, Bool.and_eq_true] at h
    have hab : strLeB a.1 b.1 = true := by
      unfold strLeB
      rw [strLtAux_asymm h.1]
      rfl
    rw [insertSorted, if_pos hab]

theorem sortFields_eq_self :
    ∀ l : List (String × JValue), keysSorted l = true → sortFields l = l := by
  intro l
  induction l with
  | nil => intro _; rfl
  | cons a t ih =>
    intro h
    rw [sortFields, ih (keysSorted_tail h), insertSorted_of_head h]

theorem normalize_triple : ∀ N : Nat,
    (∀ v : JValue, sizeOf v ≤ N → canonB v = true → normalize v = v)
    ∧ (∀ xs : List JValue, sizeOf xs ≤ N → canonItems xs = true →
        normalizeItems xs = xs)
    ∧ (∀ kvs : List (String × JValue), sizeOf kvs ≤ N →
        canonFields kvs = true → normalizeFields kvs = kvs) := by
  intro N
  induction N using Nat.strong_induction_on with
  | _ N ih =>
  refine ⟨?_, ?_, ?_⟩
  · intro v hsz hc
    cases v with
    | jnull => rfl
    | jbool b => rfl
    | jnum n => rfl
    | jstr s => rfl
    | jarr xs =>
      have hlt : sizeOf xs < N := by
        have : sizeOf (JValue.jarr xs) = 1 + sizeOf xs := by simp
        omega
      have hcx : canonItems xs = true := by
        rw [canonB] at hc
        exact hc
      rw [normalize, (ih (sizeOf xs) hlt).2.1 xs (Nat.le_refl _) hcx]
    | jobj kvs =>
      have hlt : sizeOf kvs < N := by
        have : sizeOf (JValue.jobj kvs) = 1 + sizeOf kvs := by simp
        omega
      rw [canonB, Bool.and_eq_true] at hc
      rw [normalize, (ih (sizeOf kvs) hlt).2.2 kvs (Nat.le_refl _) hc.2,
        sortFields_eq_self kvs hc.1]
  · intro xs hsz hc
    cases xs with
    | nil => rfl
    | cons x t =>
      rw [canonItems, Bool.and_eq_true] at hc
      have h1 : sizeOf x < N := by
        have : sizeOf (x :: t) = 1 + sizeOf x + sizeOf t := by simp
        omega
      have h2 : sizeOf t < N := by
        have hs : sizeOf (x :: t) = 1 + sizeOf x + sizeOf t := by simp
        omega
      rw [normalizeItems, (ih (sizeOf x) h1).1 x (Nat.le_refl _) hc.1,
        (ih (sizeOf t) h2).2.1 t (Nat.le_refl _) hc.2]
  · intro kvs hsz hc
    cases kvs with
    | nil => rfl
    | cons kv t =>
      obtain ⟨k, v⟩ := kv
      rw [canonFields, Bool.and_eq_true] at hc
      have h1 : sizeOf v < N := by
        have hs : sizeOf ((k, v) :: t) = 1 + sizeOf (k, v) + sizeOf t := by
          simp
        have hp : sizeOf (k, v) = 1 + sizeOf k + sizeOf v := by simp
        omega
      have h2 : sizeOf t < N := by
        have hs : sizeOf ((k, v) :: t) = 1 + sizeOf (k, v) + sizeOf t := by
          simp
        omega
      rw [normalizeFields, (ih (sizeOf v) h1).1 v (Nat.le_refl _) hc.1,
        (ih (sizeOf t) h2).2.2 t (Nat.le_refl _) hc.2]

theorem normalize_eq_self {v : JValue} (h : canonB v = true) :
    normalize v = v :=
  (normalize_triple (sizeOf v)).1 v (Nat.le_refl _) h

theorem canonicalBytes_inj {v w : JValue} (hv : canonB v = true)
    (hw : canonB w = true) (h : canonicalBytes v = canonicalBytes w) :
    v = w := by
  unfold canonicalBytes at h
  rw [normalize_eq_self hv, normalize_eq_self hw] at h
  exact encVal_inj h

end Shoonya

namespace Shoonya

theorem pyGet_none_removeKey {d : List (String × JValue)} {k : String}
    (h : pyGet d k = none) : removeKey d k = d := by
  induction d with
  | nil => rfl
  | cons kv rest ih =>
    rw [pyGet] at h
    by_cases hk : kv.1 = k
    · rw [if_pos hk] at h
      exact absurd h (by simp)
    · rw [if_neg hk] at h
      unfold removeKey at *
      rw [List.filter_cons, if_pos (by simpa using hk), ih h]

theorem removeKey_single_self (k : String) (v : JValue) :
    removeKey [(k, v)] k = [] := by
  simp [removeKey]

theorem pyGet_append_none {d : List (String × JValue)} {k : String}
    (h : pyGet d k = none) (m : List (String × JValue)) :
    pyGet (d ++ m) k = pyGet m k := by
  induction d with
  | nil => rfl
  | cons kv rest ih =>
    rw [pyGet] at h
    by_cases hk : kv.1 = k
    · rw [if_pos hk] at h
      exact absurd h (by simp)
    · rw [if_neg hk] at h
      rw [List.cons_append, pyGet, if_neg hk, ih h]

theorem pyGet_single (k : String) (v : JValue) :
    pyGet [(k, v)] k = some v := by
  simp [pyGet]

theorem setKey_of_get_none {d : List (String × JValue)} {k : String}
    (h : pyGet d k = none) (v : JValue) : setKey d k v = d ++ [(k, v)] := by
  induction d with
  | nil => rfl
  | cons kv rest ih =>
    rw [pyGet] at h
    by_cases hk : kv.1 = k
    · rw [if_pos hk] at h
      exact absurd h (by simp)
    · rw [if_neg hk] at h
      rw [setKey, if_neg hk, ih h, List.cons_append]

theorem setKey_append_left {d : List (String × JValue)} {k : String}
    (h : pyGet d k ≠ none) (m : List (String × JValue)) (v : JValue) :
    setKey (d ++ m) k v = setKey d k v ++ m := by
  induction d with
  | nil => exact absurd rfl h
  | cons kv rest ih =>
    by_cases hk : kv.1 = k
    · rw [List.cons_append, setKey, if_pos hk, setKey, if_pos hk,
        List.cons_append]
    · have h' : pyGet rest k ≠ none := by
        rw [pyGet, if_neg hk] at h
        exact h
      rw [List.cons_append, setKey, if_neg hk, setKey, if_neg hk, ih h',
        List.cons_append]

theorem pyGet_setKey_ne {d : List (String × JValue)} {k k' : String}
    (h : k' ≠ k) (v : JValue) : pyGet (setKey d k v) k' = pyGet d k' := by
  have hkn : k ≠ k' := Ne.symm h
  induction d with
  | nil => simp [setKey, pyGet, hkn]
  | cons kv rest ih =>
    by_cases hk : kv.1 = k
    · rw [setKey, if_pos hk, pyGet, pyGet,
        if_neg (show ¬((k, v).1 = k') by simpa using hkn),
        if_neg (show ¬(kv.1 = k') by rw [hk]; exact hkn)]
    · by_cases hk' : kv.1 = k'
      · rw [setKey, if_neg hk, pyGet, if_pos hk', pyGet, if_pos hk']
      · rw [setKey, if_neg hk, pyGet, if_neg hk', pyGet, if_neg hk', ih]

theorem setKey_self_value {d : List (String × JValue)} {k : String}
    {v v' : JValue} (h : pyGet d k = some v) (heq : setKey d k v' = d) :
    v' = v := by
  induction d with
  | nil => exact absurd h (by simp [pyGet])
  | cons kv rest ih =>
    by_cases hk : kv.1 = k
    · rw [setKey, if_pos hk] at heq
      rw [pyGet, if_pos hk] at h
      have h2 : v = kv.2 := by injection h with h'; exact h'.symm
      have h1 : ((k, v') : String × JValue).2 = kv.2 :=
        congrArg Prod.snd (by exact (List.cons.inj heq).1)
      rw [h2]
      exact h1
    · rw [setKey, if_neg hk] at heq
      rw [pyGet, if_neg hk] at h
      exact ih h (List.cons.inj heq).2

theorem map_fst_setKey {d : List (String × JValue)} {k : String}
    (h : pyGet d k ≠ none) (v : JValue) :
    (setKey d k v).map Prod.fst = d.map Prod.fst := by
  induction d with
  | nil => exact absurd rfl h
  | cons kv rest ih =>
    by_cases hk : kv.1 = k
    · rw [setKey, if_pos hk]
      simp [hk]
    · have h' : pyGet rest k ≠ none := by
        rw [pyGet, if_neg hk] at h
        exact h
      rw [setKey, if_neg hk]
      simp only [List.map_cons]
      rw [ih h']

theorem keysSorted_setKey {d : List (String × JValue)} {k : String}
    (h : pyGet d k ≠ none) (v : JValue) :
    keysSorted (setKey d k v) = keysSorted d := by
  unfold keysSorted
  rw [map_fst_setKey h v]

theorem canonFields_setKey {d : List (String × JValue)} {k : String}
    {v' : JValue} (hd : canonFields d = true) (hv : canonB v' = true) :
    canonFields (setKey d k v') = true := by
  induction d with
  | nil =>
    rw [setKey, canonFields, canonFields, Bool.and_eq_true]
    exact ⟨hv, rfl⟩
  | cons kv rest ih =>
    obtain ⟨k0, v0⟩ := kv
    rw [canonFields, Bool.and_eq_true] at hd
    by_cases hk : k0 = k
    · rw [setKey, if_pos hk, canonFields, Bool.and_eq_true]
      exact ⟨hv, hd.2⟩
    · rw [setKey, if_neg hk, canonFields, Bool.and_eq_true]
      exact ⟨hd.1, ih hd.2⟩

theorem sigDecode_sigEncode (g : PssSig) : sigDecode (sigEncode g) = some g := by
  unfold sigDecode sigEncode
  have hdata : (String.mk (natDigits g.kid ++ ':' :: g.digest)).data
      = natDigits g.kid ++ ':' :: g.digest := rfl
  rw [hdata]
  have hw := takeWhile_append_not (p := isDig) (natDigits g.kid)
    (':' :: g.digest) (natDigits_all_digits _)
    (by show isDig ':' = false; decide)
  rw [hw.1, hw.2]
  simp only []
  rw [if_neg (by simp [natDigits_ne_nil g.kid])]
  rw [natFromDigits_natDigits]

theorem isFalsy_sigEncode (g : PssSig) :
    isFalsy (.jstr (sigEncode g)) = false := by
  have h : sigEncode g ≠ "" := by
    unfold sigEncode
    intro hc
    have hd := congrArg String.data hc
    simp [natDigits_ne_nil g.kid] at hd
  show (sigEncode g == "") = false
  exact beq_eq_false_iff_ne.2 h

end Shoonya

namespace Shoonya

theorem removeKey_signed (g : List (String × JValue)) (B : JValue)
    (hnosig : pyGet g "signature" = none) :
    removeKey (g ++ [("signature", B)]) "signature" = g := by
  unfold removeKey
  rw [List.filter_append]
  have h1 : removeKey g "signature" = g := pyGet_none_removeKey hnosig
  unfold removeKey at h1
  rw [h1]
  have h2 := removeKey_single_self "signature" B
  unfold removeKey at h2
  rw [h2, List.append_nil]

theorem sigBlockOf_signed (g : List (String × JValue)) (kid : Nat) (D0 : Bytes)
    (hnosig : pyGet g "signature" = none) :
    sigBlockOf (g ++ [("signature", signatureBlock kid D0)])
      = signatureBlock kid D0 := by
  unfold sigBlockOf
  rw [pyGet_append_none hnosig, pyGet_single]
  rfl

theorem verify_on_signed (kid2 kid : Nat) (g : List (String × JValue))
    (D0 : Bytes) (hnosig : pyGet g "signature" = none) :
    verifyRecord kid2 (g ++ [("signature", signatureBlock kid D0)])
      = .ok (pssVerify kid2 (sha256 (canonicalBytes (.jobj g)))
          (pssSign kid D0)) := by
  unfold verifyRecord
  rw [sigBlockOf_signed g kid D0 hnosig, removeKey_signed g _ hnosig]
  simp only [signatureBlock]
  rw [show pyGet [("alg", JValue.jstr "RSA-PSS-SHA256"),
        ("sig_b64", JValue.jstr (sigEncode (pssSign kid D0))),
        ("pubkey_sha256_16", JValue.jstr (fingerprintOf kid))] "sig_b64"
      = some (JValue.jstr (sigEncode (pssSign kid D0))) from rfl]
  simp only []
  rw [isFalsy_sigEncode]
  simp only [Bool.false_eq_true, if_false]
  rw [sigDecode_sigEncode]

end Shoonya

namespace Shoonya

/-- C5 (amended): signing a record with the deployment keypair and
verifying with the matching public key returns true for every record
(canonical field tree, no prior signature field); altering any single
field other than the signature block, without re-signing, makes
verification return false.  (Replacing the signature block itself with a
truthy non-dict value instead raises AttributeError — see the
counterexample theorem.) -/
theorem sign_then_verify_roundtrip (kid : Nat)
    (fields : List (String × JValue))
    (hnosig : pyGet fields "signature" = none)
    (hcanon : canonB (.jobj fields) = true) :
    verifyRecord kid (signJson kid fields) = .ok true
    ∧ (∀ k v v', k ≠ "signature" → pyGet fields k = some v →
        canonB v' = true → v' ≠ v →
        verifyRecord kid (setKey (signJson kid fields) k v') = .ok false) := by
  have hsign : signJson kid fields
      = fields ++ [("signature",
          signatureBlock kid (sha256 (canonicalBytes (.jobj fields))))] := by
    unfold signJson
    exact setKey_of_get_none hnosig _
  constructor
  · rw [hsign, verify_on_signed kid kid fields _ hnosig]
    rw [show pssVerify kid (sha256 (canonicalBytes (.jobj fields)))
        (pssSign kid (sha256 (canonicalBytes (.jobj fields)))) = true from by
      simp [pssVerify, pssSign]]
  · intro k v v' hkne hget hv' hne
    have hgk : pyGet fields k ≠ none := by rw [hget]; simp
    rw [hsign, setKey_append_left hgk _ v']
    have hnosig' : pyGet (setKey fields k v') "signature" = none := by
      rw [pyGet_setKey_ne (Ne.symm hkne) v']
      exact hnosig
    rw [verify_on_signed kid kid (setKey fields k v') _ hnosig']
    have hcanon' : canonB (.jobj (setKey fields k v')) = true := by
      rw [canonB, Bool.and_eq_true] at hcanon ⊢
      refine ⟨?_, canonFields_setKey hcanon.2 hv'⟩
      rw [keysSorted_setKey hgk]
      exact hcanon.1
    have hdiff : canonicalBytes (.jobj (setKey fields k v'))
        ≠ canonicalBytes (.jobj fields) := by
      intro hceq
      have hobj := canonicalBytes_inj hcanon' hcanon hceq
      have hfe : setKey fields k v' = fields := by
        injection hobj
      exact hne (setKey_self_value hget hfe)
    have hpv : pssVerify kid
        (sha256 (canonicalBytes (.jobj (setKey fields k v'))))
        (pssSign kid (sha256 (canonicalBytes (.jobj fields)))) = false := by
      unfold pssVerify pssSign sha256
      simp only [beq_self_eq_true, Bool.true_and]
      exact beq_eq_false_iff_ne.2 (fun hc => hdiff hc.symm)
    rw [hpv]

end Shoonya

namespace Shoonya

/-- C5 counterexample: on the signed two-field record, altering the single
field "signature" (replacing the signature block by the string "x")
makes `verify` raise an uncaught AttributeError instead of returning
false, so the claim as stated fails. -/
theorem altering_signature_field_raises :
    verifyRecord 0 (setKey (signJson 0 rec0) "signature" (JValue.jstr "x"))
      = Except.error PyExc.attributeError := rfl

theorem sign_then_verify_roundtrip_witness :
    verifyRecord 0 (signJson 0 rec0) = Except.ok true
    ∧ verifyRecord 0
        (setKey (signJson 0 rec0) "device" (JValue.jstr "/dev/sdc"))
      = Except.ok false :=
  ⟨(sign_then_verify_roundtrip 0 rec0 (by rfl) (by rfl)).1,
   (sign_then_verify_roundtrip 0 rec0 (by rfl) (by rfl)).2 "device"
     (JValue.jstr "/dev/sdb") (JValue.jstr "/dev/sdc") (by decide) (by rfl)
     (by rfl)
     (by intro h; injection h with h'; exact absurd h' (by decide))⟩

/-- C6 (amended): when the signature field is missing, falsy, or a dict
whose `sig_b64` entry is missing, falsy, not a string, or undecodable,
`verify` returns false without raising.  (A truthy non-dict signature
value instead raises AttributeError — see the counterexample theorem.) -/
theorem verify_missing_or_malformed_sig (kid : Nat)
    (data : List (String × JValue))
    (h : malformedSig (sigBlockOf data) = true) :
    verifyRecord kid data = .ok false := by
  unfold verifyRecord
  cases hB : sigBlockOf data with
  | jobj l =>
    rw [hB] at h
    rw [malformedSig] at h
    simp only []
    cases hsb : pyGet l "sig_b64" with
    | none => rfl
    | some sb =>
      rw [hsb] at h
      simp only [] at h
      simp only []
      by_cases hf : isFalsy sb = true
      · rw [if_pos hf]
      · have hf' : isFalsy sb = false := eq_false_of_ne_true hf
        rw [hf', Bool.false_or] at h
        rw [if_neg (by rw [hf']; simp)]
        cases sb with
        | jstr s =>
          simp only [] at h
          simp only []
          have hdec : sigDecode s = none := by
            cases hd : sigDecode s with
            | none => rfl
            | some g => rw [hd] at h; simp [Option.isNone] at h
          rw [hdec]
        | jnull => rfl
        | jbool b => rfl
        | jnum n => rfl
        | jarr xs => rfl
        | jobj kvs => rfl
  | jnull => rw [hB] at h; exact absurd h (by simp [malformedSig])
  | jbool b => rw [hB] at h; exact absurd h (by simp [malformedSig])
  | jnum n => rw [hB] at h; exact absurd h (by simp [malformedSig])
  | jstr s => rw [hB] at h; exact absurd h (by simp [malformedSig])
  | jarr xs => rw [hB] at h; exact absurd h (by simp [malformedSig])

/-- C6 counterexample: a record whose signature field holds the (truthy,
non-dict) string "x" makes `verify` raise an uncaught AttributeError at
`sig_block.get("sig_b64")` rather than return false. -/
theorem verify_string_signature_raises :
    verifyRecord 0 [("signature", JValue.jstr "x")]
      = Except.error PyExc.attributeError := rfl

theorem verify_missing_or_malformed_sig_witness :
    verifyRecord 0 ([] : List (String × JValue)) = Except.ok false :=
  verify_missing_or_malformed_sig 0 [] rfl

end Shoonya
